import Mathlib

namespace Mprocs

/-- Embedding of `serde_yaml::Value`: the YAML value tree the configuration
loader operates on. Numbers are modelled as integers (the claims never involve
floating-point configuration values). A mapping is its ordered list of
key/value pairs. -/
inductive Value where
  | null : Value
  | bool (b : Bool) : Value
  | num (n : Int) : Value
  | str (s : String) : Value
  | seq (l : List Value) : Value
  | map (l : List (Value × Value)) : Value
deriving Repr

mutual

/-- Structural equality on YAML values (the `PartialEq` used by `serde_yaml::Value`). -/
def Value.beq : Value → Value → Bool
  | .null, .null => true
  | .bool a, .bool b => a == b
  | .num a, .num b => a == b
  | .str a, .str b => a == b
  | .seq a, .seq b => Value.beqList a b
  | .map a, .map b => Value.beqPairs a b
  | _, _ => false

/-- Equality on lists of YAML values. -/
def Value.beqList : List Value → List Value → Bool
  | [], [] => true
  | x :: xs, y :: ys => Value.beq x y && Value.beqList xs ys
  | _, _ => false

/-- Equality on lists of YAML key/value pairs. -/
def Value.beqPairs : List (Value × Value) → List (Value × Value) → Bool
  | [], [] => true
  | (k1, v1) :: xs, (k2, v2) :: ys =>
    Value.beq k1 k2 && Value.beq v1 v2 && Value.beqPairs xs ys
  | _, _ => false

end

instance : BEq Value := ⟨Value.beq⟩

/-- Lookup in a YAML mapping (`serde_yaml::Mapping::get`): the value of the first
entry whose key equals the query key. -/
def mapGet (l : List (Value × Value)) (k : Value) : Option Value :=
  match l with
  | [] => none
  | (k2, v) :: rest => if Value.beq k2 k then some v else mapGet rest k

/-- Embedding of the `Trace` type of config.rs: the path of segments leading to a
config value, most recent segment first. -/
abbrev Trace := List String

/-- Rendering of a trace (`Trace::to_string` in config.rs): oldest segment first,
rooted at the literal string shown for the empty trace. -/
def Trace.render : Trace → String
  | [] => "<config>"
  | s :: rest => Trace.render rest ++ "." ++ s

/-- Embedding of `Val::select` in config.rs: resolve a mapping whose first key is
the string dollar-select. The unreachable branch (the source unwraps the
dollar-select entry, which exists because `Val::create` checked the first key)
is modelled as an error. -/
def selectStep (os : String) (l : List (Value × Value)) (trace : Trace) :
    Except String (Value × Trace) :=
  match mapGet l (.str "$select") with
  | none => .error "unreachable: $select key missing"
  | some sv =>
    if Value.beq sv (.str "os") then
      match mapGet l (.str os) with
      | some v => .ok (v, os :: trace)
      | none =>
        match mapGet l (.str "$else") with
        | some v => .ok (v, "$else" :: trace)
        | none =>
          .error ("No matching condition found at " ++ Trace.render trace ++
            ". Use \"$else\" for default value.")
    else
      .error ("Expected \"os\" at " ++ Trace.render ("$select" :: trace))

/-- Guard used by `Val::create`: whether the first key of a mapping is the
string dollar-select. -/
def headIsSelect : List (Value × Value) → Bool
  | (k, _) :: _ => Value.beq k (.str "$select")
  | [] => false

theorem sizeOf_mapGet {l : List (Value × Value)} {k v : Value}
    (h : mapGet l k = some v) : sizeOf v < sizeOf l := by
  induction l with
  | nil => simp [mapGet] at h
  | cons p rest ih =>
    obtain ⟨k2, v2⟩ := p
    simp only [mapGet] at h
    split at h
    · cases h
      simp only [List.cons.sizeOf_spec, Prod.mk.sizeOf_spec]
      omega
    · have := ih h
      simp only [List.cons.sizeOf_spec, Prod.mk.sizeOf_spec]
      omega

theorem sizeOf_selectStep {os : String} {l : List (Value × Value)} {trace : Trace}
    {v : Value} {t : Trace} (h : selectStep os l trace = .ok (v, t)) :
    sizeOf v < sizeOf l := by
  simp only [selectStep] at h
  split at h
  · exact absurd h (by simp)
  · split at h
    · split at h
      · cases h
        exact sizeOf_mapGet (by assumption)
      · split at h
        · cases h
          exact sizeOf_mapGet (by assumption)
        · exact absurd h (by simp)
    · exact absurd h (by simp)

/-- Embedding of `Val::create` in config.rs: a mapping whose first key is the
string dollar-select is replaced, recursively, by the value `Val::select`
chooses; every other value is returned unchanged, paired with its trace. -/
def Value.create (os : String) : Value → Trace → Except String (Value × Trace)
  | .map l, trace =>
    if headIsSelect l then
      match h : selectStep os l trace with
      | .ok (v, t) => Value.create os v t
      | .error e => .error e
    else .ok (.map l, trace)
  | .null, trace => .ok (.null, trace)
  | .bool b, trace => .ok (.bool b, trace)
  | .num n, trace => .ok (.num n, trace)
  | .str s, trace => .ok (.str s, trace)
  | .seq l, trace => .ok (.seq l, trace)
termination_by v _ => sizeOf v
decreasing_by
  have hlt := sizeOf_selectStep h
  simp only [Value.map.sizeOf_spec]
  omega

/-- Insertion into an ordered map (`indexmap::IndexMap::insert`): an existing
key keeps its position and original key, only its value is replaced; a new key
is appended at the end. -/
def imInsertG {κ α : Type} (beq : κ → κ → Bool) (l : List (κ × α)) (k : κ) (a : α) :
    List (κ × α) :=
  match l with
  | [] => [(k, a)]
  | (k2, a2) :: rest =>
    if beq k2 k then (k2, a) :: rest else (k2, a2) :: imInsertG beq rest k a

/-- Building an ordered map from a sequence of pairs, as collecting an iterator
into an `IndexMap` does: repeated insertion, first pair first. -/
def imFromListG {κ α : Type} (beq : κ → κ → Bool) (l : List (κ × α)) : List (κ × α) :=
  l.foldl (fun acc p => imInsertG beq acc p.1 p.2) []

/-- Lookup in an ordered map (`IndexMap::get`): value of the first entry whose
key matches. -/
def imGetG {κ α : Type} (beq : κ → κ → Bool) (l : List (κ × α)) (k : κ) : Option α :=
  match l with
  | [] => none
  | (k2, a) :: rest => if beq k2 k then some a else imGetG beq rest k

/-- Embedding of the `Val` wrapper of config.rs: a (already select-resolved)
YAML value together with the trace of its location in the config file. -/
structure Val where
  v : Value
  trace : Trace
deriving Repr

/-- Embedding of `value_to_string` in config.rs. -/
def value_to_string : Value → Except String String
  | .null => .ok "null"
  | .bool b => .ok (toString b)
  | .num n => .ok (toString n)
  | .str s => .ok s
  | .seq _ => .error "`value_to_string` is not implemented for arrays."
  | .map _ => .error "`value_to_string` is not implemented for objects."

/-- Embedding of `Val::new`: resolve the root value with an empty trace. -/
def Val.new (os : String) (value : Value) : Except String Val :=
  (Value.create os value []).map (fun p => ⟨p.1, p.2⟩)

/-- Embedding of `Val::as_str`. -/
def Val.as_str (val : Val) : Except String String :=
  match val.v with
  | .str s => .ok s
  | _ => .error ("Expected string at " ++ Trace.render val.trace)

/-- Helper for `Val::as_array`: resolve each element with its index appended to
the trace. -/
def asArrayAux (os : String) (trace : Trace) (i : Nat) :
    List Value → Except String (List Val)
  | [] => .ok []
  | item :: rest => do
    let p ← Value.create os item (toString i :: trace)
    let tail ← asArrayAux os trace (i + 1) rest
    pure (⟨p.1, p.2⟩ :: tail)

/-- Embedding of `Val::as_array`. -/
def Val.as_array (os : String) (val : Val) : Except String (List Val) :=
  match val.v with
  | .seq items => asArrayAux os val.trace 0 items
  | _ => .error ("Expected array at " ++ Trace.render val.trace)

/-- Helper for `Val::as_object`: resolve each entry value with the stringified
key appended to the trace. -/
def asObjectAux (os : String) (trace : Trace) :
    List (Value × Value) → Except String (List (Value × Val))
  | [] => .ok []
  | (k, item) :: rest => do
    let ks ← value_to_string k
    let p ← Value.create os item (ks :: trace)
    let tail ← asObjectAux os trace rest
    pure ((k, ⟨p.1, p.2⟩) :: tail)

/-- Embedding of `Val::as_object`: the resolved entries collected into an
`IndexMap` keyed by the original YAML key. -/
def Val.as_object (os : String) (val : Val) : Except String (List (Value × Val)) :=
  match val.v with
  | .map l => (asObjectAux os val.trace l).map (imFromListG Value.beq)
  | _ => .error ("Expected object at " ++ Trace.render val.trace)

/-- Outcome of running a fallible piece of the loader: success, an error
propagated as an `anyhow::Result`, or a Rust panic (the todo macro). -/
inductive LoadResult (α : Type) where
  | ok (a : α) : LoadResult α
  | err (e : String) : LoadResult α
  | panics (msg : String) : LoadResult α
deriving DecidableEq, Repr

/-- Embedding of `CmdConfig` in config.rs: the closed command variant. -/
inductive CmdConfig where
  | cmd (cmd : List String) : CmdConfig
  | shell (shell : String) : CmdConfig
deriving DecidableEq, Repr

/-- Embedding of `ProcConfig` in config.rs. (The copy of ProcConfig constructed
in main.rs carries additional UI fields — autostart, stop signal, mouse scroll
speed — that do not exist in config.rs and play no role in the claims.) -/
structure ProcConfig where
  name : String
  cmd : CmdConfig
  cwd : Option String
  env : Option (List (String × Option String))
deriving DecidableEq, Repr

/-- Embedding of the per-entry closure in the env parsing of
`ProcConfig::from_val`: null means unset, a string means set, anything else is
an error; the key is stringified first. -/
def envEntry (k : Value) (v : Val) : Except String (String × Option String) :=
  let vres : Except String (Option String) :=
    match v.v with
    | .null => .ok none
    | .str s => .ok (some s)
    | _ => .error ("Expected string or null at " ++ Trace.render v.trace)
  do
    let ks ← value_to_string k
    let vv ← vres
    pure (ks, vv)

/-- String equality used for the env `IndexMap` keys. -/
def strBeq (a b : String) : Bool := a == b

/-- Embedding of `ProcConfig::from_val` in config.rs. The todo branches of the
source (boolean and number entries; a mapping with both or neither of the
shell and cmd keys) are Rust panics and modelled as `LoadResult.panics`. -/
def ProcConfig.from_val (os : String) (name : String) (val : Val) :
    LoadResult (Option ProcConfig) :=
  match val.v with
  | .null => .ok none
  | .bool _ => .panics "not yet implemented"
  | .num _ => .panics "not yet implemented"
  | .str shell => .ok (some ⟨name, .shell shell, none, none⟩)
  | .seq _ =>
    match Val.as_array os val with
    | .error e => .err e
    | .ok items =>
      match items.mapM Val.as_str with
      | .error e => .err e
      | .ok cmd => .ok (some ⟨name, .cmd cmd, none, none⟩)
  | .map _ =>
    match Val.as_object os val with
    | .error e => .err e
    | .ok m =>
      let cmdRes : LoadResult CmdConfig :=
        match imGetG Value.beq m (.str "shell"), imGetG Value.beq m (.str "cmd") with
        | none, some c =>
          match Val.as_array os c with
          | .error e => .err e
          | .ok items =>
            match items.mapM Val.as_str with
            | .error e => .err e
            | .ok cmd => .ok (.cmd cmd)
        | some sh, none =>
          match Val.as_str sh with
          | .error e => .err e
          | .ok s => .ok (.shell s)
        | none, none => .panics "not yet implemented"
        | some _, some _ => .panics "not yet implemented"
      match cmdRes with
      | .err e => .err e
      | .panics msg => .panics msg
      | .ok cmd =>
        match imGetG Value.beq m (.str "env") with
        | none => .ok (some ⟨name, cmd, none, none⟩)
        | some envVal =>
          match Val.as_object os envVal with
          | .error e => .err e
          | .ok envPairs =>
            match envPairs.mapM (fun p => envEntry p.1 p.2) with
            | .error e => .err e
            | .ok entries => .ok (some ⟨name, cmd, none, some (imFromListG strBeq entries)⟩)

/-- Embedding of `ServerConfig` in config.rs: it has exactly one variant. -/
inductive ServerConfig where
  | tcp (addr : String) : ServerConfig
deriving DecidableEq, Repr

/-- Embedding of `ServerConfig::from_str` in config.rs. -/
def ServerConfig.from_str (server_addr : String) : Except String ServerConfig :=
  .ok (.tcp server_addr)

/-- Embedding of `Config` in config.rs. -/
structure Config where
  procs : List ProcConfig
  server : Option ServerConfig
deriving DecidableEq, Repr

/-- Helper for `Config::from_file`: the loop turning the entries of the procs
mapping into optional process records (the stringified key is the name). -/
def procsFromPairs (os : String) : List (Value × Val) → LoadResult (List (Option ProcConfig))
  | [] => .ok []
  | (name, proc) :: rest =>
    match value_to_string name with
    | .error e => .err e
    | .ok n =>
      match ProcConfig.from_val os n proc with
      | .err e => .err e
      | .panics msg => .panics msg
      | .ok p =>
        match procsFromPairs os rest with
        | .err e => .err e
        | .panics msg => .panics msg
        | .ok ps => .ok (p :: ps)

/-- Embedding of `Config::from_file` in config.rs, starting from the parsed
YAML root value (the file read and the YAML parse are abstracted away). -/
def Config.from_value (os : String) (root : Value) : LoadResult Config :=
  match Val.new os root with
  | .error e => .err e
  | .ok cfgVal =>
    match Val.as_object os cfgVal with
    | .error e => .err e
    | .ok obj =>
      let procsRes : LoadResult (List ProcConfig) :=
        match imGetG Value.beq obj (.str "procs") with
        | none => .ok []
        | some procsVal =>
          match Val.as_object os procsVal with
          | .error e => .err e
          | .ok pairs =>
            match procsFromPairs os pairs with
            | .err e => .err e
            | .panics msg => .panics msg
            | .ok ps => .ok (ps.filterMap id)
      match procsRes with
      | .err e => .err e
      | .panics msg => .panics msg
      | .ok procs =>
        match imGetG Value.beq obj (.str "server") with
        | none => .ok ⟨procs, none⟩
        | some addr =>
          match Val.as_str addr with
          | .error e => .err e
          | .ok s =>
            match ServerConfig.from_str s with
            | .error e => .err e
            | .ok sc => .ok ⟨procs, some sc⟩

/-- Embedding of portable_pty's CommandBuilder as far as the conversion in
config.rs populates it: program, argument list, environment operations in
order, and optional working directory. -/
structure CommandBuilder where
  program : String
  args : List String
  envOps : List (String × Option String)
  cwd : Option String
deriving DecidableEq, Repr

/-- Outcome of a conversion that can hit a Rust panic. -/
inductive BuildResult (α : Type) where
  | ok (a : α) : BuildResult α
  | panics : BuildResult α
deriving DecidableEq, Repr

/-- Embedding of the `From<&ProcConfig> for CommandBuilder` conversion in
config.rs. The compile-time windows switch is the `isWindows` parameter; the
current directory of the launching process (read by `std::env::current_dir`,
`none` when unavailable) is the `currentDir` parameter. An argv command is
split at index 1, which panics in Rust when the list is empty. -/
def commandBuilderOfProc (isWindows : Bool) (currentDir : Option String)
    (cfg : ProcConfig) : BuildResult CommandBuilder :=
  let envOps : List (String × Option String) :=
    match cfg.env with
    | some e => e
    | none => []
  let cwd : Option String :=
    match cfg.cwd with
    | some c => some c
    | none => currentDir
  match cfg.cmd with
  | .cmd l =>
    match l with
    | [] => .panics
    | head :: tail => .ok ⟨head, tail, envOps, cwd⟩
  | .shell s =>
    if isWindows then .ok ⟨"cmd", ["/C", s], envOps, cwd⟩
    else .ok ⟨"sh", ["-c", s], envOps, cwd⟩

/-- Modelled from the spec: the spawn step of portable_pty's CommandBuilder is
external code not under src/. Per the spec, the spawned command's environment
is the inherited environment with the recorded operations applied on top: an
env(k, v) operation sets k to v and an env_remove(k) operation unsets k
("record environment overrides applied on top of the inherited environment; a
None value removes the inherited key"). -/
def applyEnvOps (inherited : List (String × String))
    (ops : List (String × Option String)) : List (String × String) :=
  ops.foldl
    (fun acc p =>
      match p.2 with
      | some s => imInsertG strBeq acc p.1 s
      | none => acc.filter (fun q => !(strBeq q.1 p.1)))
    inherited

/-- Helper for the COMMANDS path of run_app in main.rs: the enumerate-and-map
loop building one process record per positional command, using the i-th name
from the names list when present and the command string itself otherwise.
Only the fields that exist in config.rs's ProcConfig are kept (main.rs
additionally sets autostart, stop signal and mouse scroll speed, fields absent
from config.rs). -/
def cliProcsAux (names : List String) (i : Nat) : List String → List ProcConfig
  | [] => []
  | c :: rest =>
    ⟨(names.get? i).getD c, .shell c, none, none⟩ :: cliProcsAux names (i + 1) rest

/-- Embedding of the process list built from positional COMMANDS in main.rs. -/
def cliProcs (cmds : List String) (names : List String) : List ProcConfig :=
  cliProcsAux names 0 cmds

/-- Action run_app in main.rs hands control to after the configuration is
assembled: the one-shot control path or the colocated client/server pair. -/
inductive AppAction where
  | runCtl (ctlArg : String) (config : Config) : AppAction
  | runClientAndServer (config : Config) : AppAction
deriving DecidableEq, Repr

/-- Helper mirroring the --names handling in main.rs: the names argument split
on commas, empty when the argument is absent. -/
def namesOfArg : Option String → List String
  | some s => s.splitOn ","
  | none => []

/-- Embedding of the command-line matches run_app consumes. A present COMMANDS
argument is a nonempty list of positional commands. -/
structure CliMatches where
  server : Option String
  ctl : Option String
  names : Option String
  npm : Bool
  commands : Option (List String)

/-- Embedding of the decision logic of run_app in main.rs from the point where
the configuration has been loaded (config0; Config::from_value and the
settings machinery live in parts of the repository outside src/, and
load_npm_procs is abstracted as npmProcs): apply the --server override, then
take the one-shot control path when --ctl is present, otherwise replace the
process list with the COMMANDS-derived or npm-derived one and run the
client/server pair. -/
def runAppAction (m : CliMatches) (config0 : Config) (npmProcs : List ProcConfig) :
    AppAction :=
  let config1 : Config :=
    match m.server with
    | some addr =>
      match ServerConfig.from_str addr with
      | .ok sc => { config0 with server := some sc }
      | .error _ => config0
    | none => config0
  match m.ctl with
  | some ctlArg => .runCtl ctlArg config1
  | none =>
    let config2 : Config :=
      match m.commands with
      | some cmds => { config1 with procs := cliProcs cmds (namesOfArg m.names) }
      | none => if m.npm then { config1 with procs := npmProcs } else config1
    .runClientAndServer config2

/-- Characters of a path after its last slash: the file name component. -/
def afterLastSlash (cs : List Char) : List Char :=
  cs.foldl (fun acc c => if c = '/' then [] else acc ++ [c]) []

/-- Characters after the last dot of a list, when a dot is present. -/
def afterLastDot : List Char → Option (List Char)
  | [] => none
  | c :: rest =>
    match afterLastDot rest with
    | some t => some t
    | none => if c = '.' then some rest else none

/-- Embedding of the file-extension computation of Rust's `Path::extension` as
read_value in main.rs uses it: the part of the file name after its last dot.
Rust returns None — and read_value substitutes the empty string — when the
file name has no dot, or when its only dot is the leading dot of a dot-file
(the first character is exempt from being an extension separator). -/
def pathExtension (p : String) : String :=
  match afterLastSlash p.data with
  | [] => ""
  | _ :: rest =>
    match afterLastDot rest with
    | some ext => String.mk ext
    | none => ""

/-- Embedding of read_value in main.rs over an abstract file system: isFile
tells which paths exist; file contents and the YAML/Lua parses are abstracted,
a successful read being reported as the path that was read. Of the open
errors, the NotFound branch is the one modelled — the claims concern existence
and extension checking. -/
def read_value (isFile : String → Bool) (path : String) : Except String String :=
  if isFile path then
    match pathExtension path with
    | "yaml" | "yml" | "json" => .ok path
    | "lua" => .ok path
    | _ => .error "Supported config extensions: lua, yaml, yml, json."
  else
    .error ("Config file '" ++ path ++ "' not found.")

/-- Embedding of load_config_value in main.rs: an explicit --config path is
read unconditionally; otherwise the first existing file among the three
well-known names is read; otherwise there is no config value. -/
def load_config_value (isFile : String → Bool) (configArg : Option String) :
    Except String (Option String) :=
  match configArg with
  | some path => (read_value isFile path).map some
  | none =>
    if isFile "mprocs.lua" then (read_value isFile "mprocs.lua").map some
    else if isFile "mprocs.yaml" then (read_value isFile "mprocs.yaml").map some
    else if isFile "mprocs.json" then (read_value isFile "mprocs.json").map some
    else .ok none

theorem commandBuilderOfProc_ok_fields (isWindows : Bool) (currentDir : Option String)
    (cfg : ProcConfig) (b : CommandBuilder)
    (h : commandBuilderOfProc isWindows currentDir cfg = .ok b) :
    b.envOps = (match cfg.env with | some e => e | none => []) ∧
    b.cwd = (match cfg.cwd with | some c => some c | none => currentDir) := by
  obtain ⟨name, cmd, cw, env⟩ := cfg
  cases cmd with
  | cmd l =>
    cases l with
    | nil => simp [commandBuilderOfProc] at h
    | cons hd tl =>
      simp only [commandBuilderOfProc] at h
      cases h
      exact ⟨rfl, rfl⟩
  | shell s =>
    cases isWindows <;>
      · simp only [commandBuilderOfProc, if_true, if_false, Bool.false_eq_true,
          reduceIte] at h
        cases h
        exact ⟨rfl, rfl⟩

/-- C5: the spawned command uses exactly the configured working directory when
one is configured, and defaults to the launching process's current directory
when none is configured. -/
theorem proc_cwd_default (isWindows : Bool) (currentDir : Option String)
    (cfg : ProcConfig) (b : CommandBuilder)
    (h : commandBuilderOfProc isWindows currentDir cfg = .ok b) :
    (∀ d, cfg.cwd = some d → b.cwd = some d) ∧
    (cfg.cwd = none → b.cwd = currentDir) := by
  have hf := (commandBuilderOfProc_ok_fields _ _ _ _ h).2
  constructor
  · intro d hd
    rw [hf, hd]
  · intro hd
    rw [hf, hd]

/-- C5 witness: a record with a configured directory keeps it; the same shell
command without one falls back to the current directory. -/
theorem proc_cwd_default_witness :
    ((∀ d, (ProcConfig.mk "w" (.shell "echo hi") (some "/srv") none).cwd = some d →
        (CommandBuilder.mk "sh" ["-c", "echo hi"] [] (some "/srv")).cwd = some d) ∧
      ((ProcConfig.mk "w" (.shell "echo hi") (some "/srv") none).cwd = none →
        (CommandBuilder.mk "sh" ["-c", "echo hi"] [] (some "/srv")).cwd = some "/tmp/cd")) ∧
    ((∀ d, (ProcConfig.mk "w" (.shell "echo hi") none none).cwd = some d →
        (CommandBuilder.mk "sh" ["-c", "echo hi"] [] (some "/tmp/cd")).cwd = some d) ∧
      ((ProcConfig.mk "w" (.shell "echo hi") none none).cwd = none →
        (CommandBuilder.mk "sh" ["-c", "echo hi"] [] (some "/tmp/cd")).cwd = some "/tmp/cd")) :=
  ⟨proc_cwd_default false (some "/tmp/cd") _ _ rfl,
   proc_cwd_default false (some "/tmp/cd") _ _ rfl⟩

/-- C8: converting an argv-variant record into a command splits off the first
element as the program and the rest as the arguments, and is defined only for
nonempty argv lists — the empty list hits the out-of-bounds split and panics
instead of returning an error. -/
theorem argv_head_tail (isWindows : Bool) (currentDir : Option String)
    (name : String) (cw : Option String) (env : Option (List (String × Option String)))
    (l : List String) :
    (l = [] → commandBuilderOfProc isWindows currentDir ⟨name, .cmd l, cw, env⟩ = .panics) ∧
    (∀ head tail, l = head :: tail →
      ∃ b, commandBuilderOfProc isWindows currentDir ⟨name, .cmd l, cw, env⟩ = .ok b ∧
        b.program = head ∧ b.args = tail) := by
  constructor
  · rintro rfl
    rfl
  · rintro head tail rfl
    exact ⟨_, rfl, rfl, rfl⟩

/-- C8 witness: the panic on an empty argv list and the head/tail split on a
concrete two-element argv list. -/
theorem argv_head_tail_witness :
    commandBuilderOfProc false none ⟨"w", .cmd [], none, none⟩ = .panics ∧
    ∃ b, commandBuilderOfProc false none ⟨"w", .cmd ["cargo", "run"], none, none⟩ = .ok b ∧
      b.program = "cargo" ∧ b.args = ["run"] :=
  ⟨(argv_head_tail false none "w" none none []).1 rfl,
   (argv_head_tail false none "w" none none ["cargo", "run"]).2 "cargo" ["run"] rfl⟩

/-- C6 counterexample: a local-domain socket path and a host:port endpoint,
parsed as server addresses, both come back as the TCP variant — the parser
performs no classification into a socket-path kind and a TCP kind, the
embedded ServerConfig having only the TCP variant. -/
theorem server_addr_not_classified :
    ServerConfig.from_str "/tmp/mprocs.sock" = .ok (.tcp "/tmp/mprocs.sock") ∧
    ServerConfig.from_str "127.0.0.1:4050" = .ok (.tcp "127.0.0.1:4050") :=
  ⟨rfl, rfl⟩

/-- C6 amended: parsing a server address accepts any string and always produces
the single TCP host:port kind, storing the address string verbatim. -/
theorem server_addr_always_tcp (s : String) :
    ServerConfig.from_str s = .ok (.tcp s) := rfl

/-- C7: when the one-shot control argument is supplied, run_app takes the
control-client path with that argument and the assembled configuration, and
never the in-process client/server pair. -/
theorem ctl_takes_control_path (m : CliMatches) (config0 : Config)
    (npmProcs : List ProcConfig) (s : String) (h : m.ctl = some s) :
    (∃ cfg, runAppAction m config0 npmProcs = .runCtl s cfg) ∧
    (∀ cfg, runAppAction m config0 npmProcs ≠ .runClientAndServer cfg) := by
  unfold runAppAction
  rw [h]
  exact ⟨⟨_, rfl⟩, fun cfg hcfg => AppAction.noConfusion hcfg⟩

/-- C7 witness: a concrete command line carrying a control payload. -/
theorem ctl_takes_control_path_witness :
    (∃ cfg, runAppAction ⟨none, some "c: quit", none, false, none⟩ ⟨[], none⟩ [] =
      .runCtl "c: quit" cfg) ∧
    (∀ cfg, runAppAction ⟨none, some "c: quit", none, false, none⟩ ⟨[], none⟩ [] ≠
      .runClientAndServer cfg) :=
  ctl_takes_control_path ⟨none, some "c: quit", none, false, none⟩ ⟨[], none⟩ [] "c: quit" rfl

/-- C2 (code bug): a process entry that is a boolean, a process mapping with
both of the shell and cmd keys, and one with neither, each drive configuration
loading into the todo macro — a Rust panic — rather than producing the
configuration-error result the spec describes. -/
theorem malformed_config_panics :
    Config.from_value "linux" (.map [(.str "procs", .map [(.str "a", .bool true)])]) =
      .panics "not yet implemented" ∧
    Config.from_value "linux" (.map [(.str "procs", .map [(.str "a",
      .map [(.str "shell", .str "x"), (.str "cmd", .seq [.str "x"])])])]) =
      .panics "not yet implemented" ∧
    Config.from_value "linux" (.map [(.str "procs", .map [(.str "a",
      .map [(.str "env", .map [])])])]) =
      .panics "not yet implemented" := by
  refine ⟨?_, ?_, ?_⟩ <;>
    simp [Config.from_value, Val.new, Value.create, headIsSelect, Value.beq, Val.as_object,
      asObjectAux, value_to_string, imFromListG, imInsertG, imGetG, procsFromPairs,
      ProcConfig.from_val, selectStep, mapGet, Except.map, Val.as_str, Val.as_array,
      asArrayAux, ServerConfig.from_str, bind, Except.bind, pure, Except.pure]

theorem imGetG_imInsertG_self {α : Type} (l : List (String × α)) (k : String) (v : α) :
    imGetG strBeq (imInsertG strBeq l k v) k = some v := by
  induction l with
  | nil => simp [imInsertG, imGetG, strBeq]
  | cons p rest ih =>
    obtain ⟨k2, v2⟩ := p
    by_cases hk : k2 = k
    · subst hk
      simp [imInsertG, imGetG, strBeq]
    · simp [imInsertG, imGetG, strBeq, hk, ih]

theorem imGetG_imInsertG_other {α : Type} (l : List (String × α)) (k2 k : String) (v : α)
    (h : k2 ≠ k) :
    imGetG strBeq (imInsertG strBeq l k2 v) k = imGetG strBeq l k := by
  induction l with
  | nil => simp [imInsertG, imGetG, strBeq, h]
  | cons p rest ih =>
    obtain ⟨k3, v3⟩ := p
    by_cases hk : k3 = k2
    · subst hk
      have h3 : k3 ≠ k := h
      simp [imInsertG, imGetG, strBeq, h3]
    · simp [imInsertG, imGetG, strBeq, hk, ih]

theorem imGetG_filter_self {α : Type} (l : List (String × α)) (k : String) :
    imGetG strBeq (l.filter fun q => !(strBeq q.1 k)) k = none := by
  induction l with
  | nil => rfl
  | cons p rest ih =>
    obtain ⟨k2, v2⟩ := p
    simp only [strBeq] at ih ⊢
    by_cases hk : k2 = k
    · subst hk
      simp [List.filter_cons, ih]
    · simp [List.filter_cons, hk, imGetG, strBeq, ih]

theorem imGetG_filter_other {α : Type} (l : List (String × α)) (k2 k : String)
    (h : k2 ≠ k) :
    imGetG strBeq (l.filter fun q => !(strBeq q.1 k2)) k = imGetG strBeq l k := by
  induction l with
  | nil => rfl
  | cons p rest ih =>
    obtain ⟨k3, v3⟩ := p
    simp only [strBeq] at ih ⊢
    by_cases hk : k3 = k2
    · subst hk
      have h3 : k3 ≠ k := h
      simp [List.filter_cons, imGetG, strBeq, ih, h3]
    · simp [List.filter_cons, hk, imGetG, strBeq, ih]

theorem imGetG_eq_none {α : Type} (l : List (String × α)) (k : String)
    (h : ∀ p ∈ l, p.1 ≠ k) : imGetG strBeq l k = none := by
  induction l with
  | nil => rfl
  | cons p rest ih =>
    obtain ⟨k2, v2⟩ := p
    have h2 : k2 ≠ k := h (k2, v2) (List.mem_cons_self _ _)
    simpa [imGetG, strBeq, h2] using ih (fun q hq => h q (List.mem_cons_of_mem _ hq))

theorem applyEnvOps_cons (inh : List (String × String)) (p : String × Option String)
    (ops : List (String × Option String)) :
    applyEnvOps inh (p :: ops) =
      applyEnvOps
        (match p.2 with
         | some s => imInsertG strBeq inh p.1 s
         | none => inh.filter fun q => !(strBeq q.1 p.1))
        ops := rfl

theorem applyEnvOps_preserves (inh : List (String × String))
    (ops : List (String × Option String)) (k : String)
    (h : ∀ p ∈ ops, p.1 ≠ k) :
    imGetG strBeq (applyEnvOps inh ops) k = imGetG strBeq inh k := by
  induction ops generalizing inh with
  | nil => rfl
  | cons p ops ih =>
    obtain ⟨pk, pv⟩ := p
    have hp : pk ≠ k := h (pk, pv) (List.mem_cons_self _ _)
    have hrest : ∀ q ∈ ops, q.1 ≠ k := fun q hq => h q (List.mem_cons_of_mem _ hq)
    cases pv with
    | some s =>
      rw [applyEnvOps_cons, ih _ hrest]
      exact imGetG_imInsertG_other inh pk k s hp
    | none =>
      rw [applyEnvOps_cons, ih _ hrest]
      exact imGetG_filter_other inh pk k hp

theorem applyEnvOps_lookup (inh : List (String × String))
    (ops : List (String × Option String)) (k : String)
    (hnd : (ops.map Prod.fst).Nodup) :
    imGetG strBeq (applyEnvOps inh ops) k =
      match imGetG strBeq ops k with
      | some (some v) => some v
      | some none => none
      | none => imGetG strBeq inh k := by
  induction ops generalizing inh with
  | nil => rfl
  | cons p ops ih =>
    obtain ⟨pk, pv⟩ := p
    rw [List.map_cons, List.nodup_cons] at hnd
    obtain ⟨hpk, hnd2⟩ := hnd
    by_cases hk : pk = k
    · subst hk
      have hops : ∀ q ∈ ops, q.1 ≠ pk := by
        intro q hq hq2
        apply hpk
        rw [← hq2]
        exact List.mem_map.mpr ⟨q, hq, rfl⟩
      have hR : imGetG strBeq ((pk, pv) :: ops) pk = some pv := by
        simp [imGetG, strBeq]
      rw [hR]
      cases pv with
      | some s =>
        rw [applyEnvOps_cons, applyEnvOps_preserves _ _ _ hops]
        exact imGetG_imInsertG_self inh pk s
      | none =>
        rw [applyEnvOps_cons, applyEnvOps_preserves _ _ _ hops]
        exact imGetG_filter_self inh pk
    · have hR : imGetG strBeq ((pk, pv) :: ops) k = imGetG strBeq ops k := by
        simp [imGetG, strBeq, hk]
      rw [hR]
      cases pv with
      | some s =>
        rw [applyEnvOps_cons, ih _ hnd2, imGetG_imInsertG_other inh pk k s hk]
      | none =>
        rw [applyEnvOps_cons, ih _ hnd2, imGetG_filter_other inh pk k hk]

/-- C1: for a record with an environment mapping, looking any name up in the
spawned command's environment — the inherited environment with the record's
operations applied on top — gives the override string for an entry whose value
is a string, nothing for an entry whose value is null (the inherited variable
is unset), and the inherited binding for names the mapping does not contain. -/
theorem env_merge_lookup (isWindows : Bool) (currentDir : Option String)
    (cfg : ProcConfig) (b : CommandBuilder) (inherited : List (String × String))
    (e : List (String × Option String)) (k : String)
    (henv : cfg.env = some e) (hnd : (e.map Prod.fst).Nodup)
    (hb : commandBuilderOfProc isWindows currentDir cfg = .ok b) :
    imGetG strBeq (applyEnvOps inherited b.envOps) k =
      match imGetG strBeq e k with
      | some (some v) => some v
      | some none => none
      | none => imGetG strBeq inherited k := by
  have hops := (commandBuilderOfProc_ok_fields _ _ _ _ hb).1
  rw [henv] at hops
  rw [hops]
  exact applyEnvOps_lookup inherited e k hnd

/-- C1 witness: one variable overridden with a string, one unset by a null
entry, one untouched, all against a concrete inherited environment. -/
theorem env_merge_lookup_witness :
    imGetG strBeq (applyEnvOps [("B", "b0"), ("C", "c0")]
      (CommandBuilder.mk "sh" ["-c", "x"] [("A", some "1"), ("B", none)] none).envOps) "A" =
      some "1" ∧
    imGetG strBeq (applyEnvOps [("B", "b0"), ("C", "c0")]
      (CommandBuilder.mk "sh" ["-c", "x"] [("A", some "1"), ("B", none)] none).envOps) "B" =
      none ∧
    imGetG strBeq (applyEnvOps [("B", "b0"), ("C", "c0")]
      (CommandBuilder.mk "sh" ["-c", "x"] [("A", some "1"), ("B", none)] none).envOps) "C" =
      some "c0" :=
  ⟨env_merge_lookup false none ⟨"w", .shell "x", none, some [("A", some "1"), ("B", none)]⟩
      _ _ _ "A" rfl (by decide) rfl,
   env_merge_lookup false none ⟨"w", .shell "x", none, some [("A", some "1"), ("B", none)]⟩
      _ _ _ "B" rfl (by decide) rfl,
   env_merge_lookup false none ⟨"w", .shell "x", none, some [("A", some "1"), ("B", none)]⟩
      _ _ _ "C" rfl (by decide) rfl⟩

/-- C4 counterexample: two identical positional commands without a names
argument yield two process records with the same name, so a loaded process
list need not have pairwise distinct names. -/
theorem cli_duplicate_names :
    ¬ (((cliProcs ["ls", "ls"] []).map ProcConfig.name).Nodup) := by decide

theorem cliProcsAux_names_eq (names : List String) (cmds : List String) (i : Nat)
    (h : i + cmds.length ≤ names.length) :
    (cliProcsAux names i cmds).map ProcConfig.name = (names.drop i).take cmds.length := by
  induction cmds generalizing i with
  | nil => simp [cliProcsAux]
  | cons c rest ih =>
    have hi : i < names.length := by
      simp only [List.length_cons] at h
      omega
    simp only [cliProcsAux, List.map_cons]
    rw [ih (i + 1) (by simp only [List.length_cons] at h; omega)]
    rw [List.drop_eq_getElem_cons hi]
    simp only [List.length_cons, List.take_succ_cons]
    congr 1
    rw [(List.get?_eq_getElem? names i).trans (List.getElem?_eq_getElem hi)]
    rfl

theorem from_val_name (os n : String) (val : Val) (p : ProcConfig)
    (h : ProcConfig.from_val os n val = .ok (some p)) : p.name = n := by
  simp only [ProcConfig.from_val] at h
  repeat' split at h
  all_goals
    first
      | (injection h with h2
         first
           | (injection h2 with h3
              rw [← h3])
           | injection h2)
      | injection h

theorem procsFromPairs_names (os : String) (pairs : List (Value × Val))
    (ps : List (Option ProcConfig)) (h : procsFromPairs os pairs = .ok ps) :
    ((ps.filterMap id).map ProcConfig.name).Sublist
      (pairs.map fun pr => (value_to_string pr.1).toOption.getD "") := by
  induction pairs generalizing ps with
  | nil =>
    simp only [procsFromPairs] at h
    injection h with h2
    subst h2
    simp
  | cons pr rest ih =>
    obtain ⟨kv, pv⟩ := pr
    simp only [procsFromPairs] at h
    split at h
    · exact absurd h (by simp)
    · rename_i n hks
      split at h
      · exact absurd h (by simp)
      · exact absurd h (by simp)
      · rename_i popt hfv
        split at h
        · exact absurd h (by simp)
        · exact absurd h (by simp)
        · rename_i ps2 hrec
          injection h with h2
          subst h2
          simp only [List.map_cons, hks, Except.toOption, Option.getD_some]
          cases popt with
          | none =>
            simpa using (ih ps2 hrec).cons n
          | some p =>
            have hnm := from_val_name os n pv p hfv
            simpa [hnm] using (ih ps2 hrec).cons₂ n

/-- C4 amended: loaded process names are not pairwise distinct in general (see
the counterexample); they are pairwise distinct whenever the sources of the
names are: on the COMMANDS path, when the names argument supplies pairwise
distinct names covering every command, and on the config-file path, when the
stringified keys of the procs mapping are pairwise distinct. -/
theorem proc_names_distinct_amended :
    (∀ cmds names : List String, names.Nodup → cmds.length ≤ names.length →
      ((cliProcs cmds names).map ProcConfig.name).Nodup) ∧
    (∀ os : String, ∀ pairs : List (Value × Val), ∀ ps : List (Option ProcConfig),
      procsFromPairs os pairs = .ok ps →
      (pairs.map fun pr => (value_to_string pr.1).toOption.getD "").Nodup →
      ((ps.filterMap id).map ProcConfig.name).Nodup) := by
  constructor
  · intro cmds names h1 h2
    unfold cliProcs
    rw [cliProcsAux_names_eq names cmds 0 (by omega)]
    exact h1.sublist ((List.take_sublist _ _).trans (List.drop_sublist _ _))
  · intro os pairs ps h hnd
    exact hnd.sublist (procsFromPairs_names os pairs ps h)

/-- C4 amended witness: distinct explicit names on the COMMANDS path, and a
procs mapping with distinct string keys on the config-file path. -/
theorem proc_names_distinct_amended_witness :
    ((cliProcs ["ls", "pwd"] ["a", "b"]).map ProcConfig.name).Nodup ∧
    ((([some (ProcConfig.mk "x" (.shell "c1") none none),
        some (ProcConfig.mk "y" (.shell "c2") none none)] :
          List (Option ProcConfig)).filterMap id).map ProcConfig.name).Nodup :=
  ⟨proc_names_distinct_amended.1 ["ls", "pwd"] ["a", "b"] (by decide) (by decide),
   proc_names_distinct_amended.2 "linux"
     [(Value.str "x", Val.mk (.str "c1") ["x"]), (Value.str "y", Val.mk (.str "c2") ["y"])]
     _ rfl (by decide)⟩

/-- C3: every successfully loaded process command is one of the two closed
variants, decided by the shape of the config value: a string yields the
shell-line variant carrying that string; a sequence yields the argv variant
carrying its element strings; a mapping yields the argv variant exactly when
it has the cmd key and not the shell key, and the shell-line variant exactly
when it has the shell key and not the cmd key. -/
theorem from_val_cmd_variants (os name : String) (val : Val) (p : ProcConfig)
    (h : ProcConfig.from_val os name val = .ok (some p)) :
    (∃ s, val.v = .str s ∧ p.cmd = .shell s) ∨
    (∃ items vals ss, val.v = .seq items ∧ Val.as_array os val = .ok vals ∧
      vals.mapM Val.as_str = .ok ss ∧ p.cmd = .cmd ss) ∨
    (∃ l obj, val.v = .map l ∧ Val.as_object os val = .ok obj ∧
      ((imGetG Value.beq obj (.str "shell") = none ∧
        ∃ c vals ss, imGetG Value.beq obj (.str "cmd") = some c ∧
          Val.as_array os c = .ok vals ∧ vals.mapM Val.as_str = .ok ss ∧
          p.cmd = .cmd ss) ∨
       (∃ sh s, imGetG Value.beq obj (.str "shell") = some sh ∧
        imGetG Value.beq obj (.str "cmd") = none ∧ Val.as_str sh = .ok s ∧
        p.cmd = .shell s))) := by
  obtain ⟨v, tr⟩ := val
  cases v with
  | null => exact absurd h (by simp [ProcConfig.from_val])
  | bool b => exact absurd h (by simp [ProcConfig.from_val])
  | num nn => exact absurd h (by simp [ProcConfig.from_val])
  | str s =>
    refine Or.inl ⟨s, rfl, ?_⟩
    simp only [ProcConfig.from_val] at h
    injection h with h2
    injection h2 with h3
    rw [← h3]
  | seq items =>
    simp only [ProcConfig.from_val] at h
    refine Or.inr (Or.inl ?_)
    split at h
    · injection h
    · rename_i vals hvals
      split at h
      · injection h
      · rename_i ss hss
        injection h with h2
        injection h2 with h3
        exact ⟨items, vals, ss, rfl, hvals, hss, by rw [← h3]⟩
  | map l =>
    simp only [ProcConfig.from_val] at h
    refine Or.inr (Or.inr ?_)
    split at h
    · injection h
    · rename_i obj hobj
      refine ⟨l, obj, rfl, hobj, ?_⟩
      split at h
      · injection h
      · injection h
      · rename_i cmd hcmd
        have hpcmd : p.cmd = cmd := by
          split at h
          · injection h with h2
            injection h2 with h3
            rw [← h3]
          · split at h
            · injection h
            · split at h
              · injection h
              · injection h with h2
                injection h2 with h3
                rw [← h3]
        split at hcmd
        · rename_i c hshell hcmdk
          split at hcmd
          · injection hcmd
          · rename_i vals hvals
            split at hcmd
            · injection hcmd
            · rename_i ss hss
              injection hcmd with h4
              exact Or.inl ⟨hshell, c, vals, ss, hcmdk, hvals, hss, by rw [hpcmd, ← h4]⟩
        · rename_i sh hshell hcmdk
          split at hcmd
          · injection hcmd
          · rename_i s hs
            injection hcmd with h4
            exact Or.inr ⟨sh, s, hshell, hcmdk, hs, by rw [hpcmd, ← h4]⟩
        · injection hcmd
        · injection hcmd

/-- C3 witness: a plain string config value loads as the shell-line variant. -/
theorem from_val_cmd_variants_witness :
    (∃ s, (Val.mk (.str "make dev") []).v = .str s ∧
      (ProcConfig.mk "a" (.shell "make dev") none none).cmd = .shell s) ∨
    (∃ items vals ss, (Val.mk (.str "make dev") []).v = .seq items ∧
      Val.as_array "linux" (Val.mk (.str "make dev") []) = .ok vals ∧
      vals.mapM Val.as_str = .ok ss ∧
      (ProcConfig.mk "a" (.shell "make dev") none none).cmd = .cmd ss) ∨
    (∃ l obj, (Val.mk (.str "make dev") []).v = .map l ∧
      Val.as_object "linux" (Val.mk (.str "make dev") []) = .ok obj ∧
      ((imGetG Value.beq obj (.str "shell") = none ∧
        ∃ c vals ss, imGetG Value.beq obj (.str "cmd") = some c ∧
          Val.as_array "linux" c = .ok vals ∧ vals.mapM Val.as_str = .ok ss ∧
          (ProcConfig.mk "a" (.shell "make dev") none none).cmd = .cmd ss) ∨
       (∃ sh s, imGetG Value.beq obj (.str "shell") = some sh ∧
        imGetG Value.beq obj (.str "cmd") = none ∧ Val.as_str sh = .ok s ∧
        (ProcConfig.mk "a" (.shell "make dev") none none).cmd = .shell s))) :=
  from_val_cmd_variants "linux" "a" (Val.mk (.str "make dev") [])
    (ProcConfig.mk "a" (.shell "make dev") none none) rfl

theorem beq_str_iff (v : Value) (s : String) :
    Value.beq v (.str s) = true ↔ v = .str s := by
  cases v <;> simp [Value.beq]

instance decValueEqStr (v : Value) (s : String) : Decidable (v = Value.str s) :=
  decidable_of_iff (Value.beq v (.str s) = true) (beq_str_iff v s)

theorem create_map_select (os : String) (l : List (Value × Value)) (trace : Trace)
    (hsel : headIsSelect l = true) :
    Value.create os (.map l) trace =
      match selectStep os l trace with
      | .ok (v, t) => Value.create os v t
      | .error e => .error e := by
  rw [Value.create, if_pos hsel]
  split
  · rename_i v t hst
    rw [hst]
  · rename_i e hst
    rw [hst]

/-- C9: during loading, a mapping whose first key is the select directive with
value "os" is replaced — recursively, before any other interpretation — by the
value under the key named like the current operating system when present,
otherwise by the value under the else key when present, and otherwise loading
fails with an error naming the location; a select directive with any value
other than "os" always fails with an error. -/
theorem select_directive_resolution (os : String) (sv : Value)
    (rest : List (Value × Value)) (trace : Trace) :
    Value.create os (.map ((Value.str "$select", sv) :: rest)) trace =
      (if sv = Value.str "os" then
        match mapGet ((Value.str "$select", sv) :: rest) (.str os) with
        | some v => Value.create os v (os :: trace)
        | none =>
          match mapGet ((Value.str "$select", sv) :: rest) (.str "$else") with
          | some v => Value.create os v ("$else" :: trace)
          | none =>
            .error ("No matching condition found at " ++ Trace.render trace ++
              ". Use \"$else\" for default value.")
      else
        .error ("Expected \"os\" at " ++ Trace.render ("$select" :: trace))) := by
  rw [create_map_select os _ trace (by simp [headIsSelect, Value.beq])]
  have hget : mapGet ((Value.str "$select", sv) :: rest) (.str "$select") = some sv := by
    simp [mapGet, Value.beq]
  by_cases hsv : sv = Value.str "os"
  · rw [if_pos hsv]
    subst hsv
    simp only [selectStep, hget]
    rw [if_pos (by simp [Value.beq])]
    cases hos : mapGet ((Value.str "$select", Value.str "os") :: rest) (.str os) with
    | some v => rfl
    | none =>
      cases helse : mapGet ((Value.str "$select", Value.str "os") :: rest) (.str "$else") with
      | some v => rfl
      | none => rfl
  · rw [if_neg hsv]
    simp only [selectStep, hget]
    rw [if_neg (by simp [beq_str_iff, hsv])]

/-- C10: configuration-file discovery: an explicit --config path is read with
no fallback and its absence is an error; without --config the first existing
file among the three well-known names is read, and when none exists there is
no config value (the default configuration is used); an existing file whose
extension is not lua, yaml, yml or json is rejected with an error. -/
theorem config_discovery (isFile : String → Bool) :
    (∀ path, isFile path = false →
      load_config_value isFile (some path) =
        .error ("Config file '" ++ path ++ "' not found.")) ∧
    (∀ path, isFile path = true →
      pathExtension path ∉ (["lua", "yaml", "yml", "json"] : List String) →
      load_config_value isFile (some path) =
        .error "Supported config extensions: lua, yaml, yml, json.") ∧
    (∀ path, load_config_value isFile (some path) = (read_value isFile path).map some) ∧
    (load_config_value isFile none =
      if isFile "mprocs.lua" then (read_value isFile "mprocs.lua").map some
      else if isFile "mprocs.yaml" then (read_value isFile "mprocs.yaml").map some
      else if isFile "mprocs.json" then (read_value isFile "mprocs.json").map some
      else .ok none) := by
  refine ⟨?_, ?_, fun path => rfl, rfl⟩
  · intro path hf
    simp [load_config_value, read_value, hf, Except.map]
  · intro path hf hext
    simp only [load_config_value, read_value, hf, if_true]
    split
    · rename_i heq
      exact absurd (by simp [heq]) hext
    · rename_i heq
      exact absurd (by simp [heq]) hext
    · rename_i heq
      exact absurd (by simp [heq]) hext
    · rename_i heq
      exact absurd (by simp [heq]) hext
    · simp [Except.map]

/-- C10 witness: with only mprocs.yaml and custom.conf existing, an explicit
absent --config path errors without falling back, and an existing file with an
unsupported extension is rejected. -/
theorem config_discovery_witness :
    load_config_value (fun p => p == "mprocs.yaml" || p == "custom.conf")
        (some "absent.yaml") =
      .error ("Config file '" ++ "absent.yaml" ++ "' not found.") ∧
    load_config_value (fun p => p == "mprocs.yaml" || p == "custom.conf")
        (some "custom.conf") =
      .error "Supported config extensions: lua, yaml, yml, json." :=
  ⟨(config_discovery (fun p => p == "mprocs.yaml" || p == "custom.conf")).1
      "absent.yaml" (by decide),
   (config_discovery (fun p => p == "mprocs.yaml" || p == "custom.conf")).2.1
      "custom.conf" (by decide) (by decide)⟩

end Mprocs
